import Mathlib

/-!
Verification of the csnip memory pool (`src/csnip/mempool.h`).

The pool code is macro-generated C; we embed the generated functions for an
arbitrary item type.  Item storage is modelled at the granularity the pool
itself observes: each item slot holds one pointer-sized overlay value (the
intrusive free-list "next" pointer).  The pool never reads an allocated
item's contents, so nothing finer is needed.

Addresses are pairs (block id, index).  The allocation collaborator
(csnip's `mem.h`, which is not among the sources) is modelled from the spec
as a block store with a failure oracle.
-/

/-- A cell-level address inside the allocator: (block id, item index). -/
abbrev Addr : Type := Nat × Nat

/-- An overlaid pointer value stored in an item slot; `none` models NULL. -/
abbrev Ptr : Type := Option Addr

/-- State of the allocation collaborator: a fresh-id counter, the live
blocks (id paired with its item cells), and an oracle prescribing the
outcome of successive allocation calls (`[]` means every call succeeds). -/
structure Mem where
  nextId : Nat
  blocks : List (Nat × List Ptr)
  oracle : List Bool
deriving DecidableEq

/-- Look up the cells of a live block. -/
def Mem.findBlock (m : Mem) (id : Nat) : Option (List Ptr) :=
  (m.blocks.find? (fun b => b.1 == id)).map (fun b => b.2)

/-- Modelled from the spec: the collaborator operation
`allocate_contiguous(count) -> block or AllocationFailure`
(`csnip_mem_Alloc` from csnip's `mem.h`, which is not among the sources).
On success a fresh block of `n` uninitialized cells is handed out; on
failure the returned pointer is NULL and the error flag (the returned
Bool, the `*err` out-parameter) is set. -/
def csnip_mem_Alloc (m : Mem) (n : Nat) : Option Nat × Mem × Bool :=
  match m.oracle with
  | [] =>
      (some m.nextId,
        { nextId := m.nextId + 1,
          blocks := m.blocks ++ [(m.nextId, List.replicate n none)],
          oracle := [] }, false)
  | b :: rest =>
      if b then
        (some m.nextId,
          { nextId := m.nextId + 1,
            blocks := m.blocks ++ [(m.nextId, List.replicate n none)],
            oracle := rest }, false)
      else
        (none, { m with oracle := rest }, true)

/-- Modelled from the spec: the collaborator operation `release_block(block)`
(`csnip_mem_Free`).  Freeing NULL is a no-op; freeing a block removes it
from the live block list. -/
def csnip_mem_Free (m : Mem) (p : Ptr) : Mem :=
  match p with
  | none => m
  | some a => { m with blocks := m.blocks.filter (fun b => b.1 != a.1) }

/-- Read the overlaid pointer stored at address `a` (the C expression
`*(itemtype**)&sl[i]`); `none` when `a` is not a live cell (in C this
read would be undefined behavior). -/
def Mem.read (m : Mem) (a : Addr) : Option Ptr :=
  (m.findBlock a.1).bind (fun cells => cells[a.2]?)

/-- Replace the cells of block `id` (no-op if the block is not live). -/
def Mem.setBlock (m : Mem) (id : Nat) (cells : List Ptr) : Mem :=
  { m with blocks := m.blocks.map (fun b => if b.1 = id then (b.1, cells) else b) }

/-- Write the overlaid pointer `v` at address `a` (the C statement
`*(itemtype**)e = v`); fails (`none`) when `a` is not a live cell, which
in C would be undefined behavior. -/
def Mem.write (m : Mem) (a : Addr) (v : Ptr) : Option Mem :=
  (m.findBlock a.1).bind (fun cells =>
    if a.2 < cells.length then some (m.setBlock a.1 (cells.set a.2 v)) else none)

/-- The pool structure generated by CSNIP_MEMPOOL_DEF_TYPE: the slab index
pointer `slabs` (an `itemtype**`, i.e. a pointer to a block of pointer
cells), its fill and capacity, the running allocation counter `n_items`,
and the free-list head `first_free`. -/
structure Pool where
  slabs : Ptr
  n_slabs : Nat
  cap_slabs : Nat
  n_items : Nat
  first_free : Ptr
deriving DecidableEq

/-- Outcome of running a generated pool function: a normal return, or
`undef` when the C code's behavior is undefined (failed `assert`, NULL
dereference, invalid memory access). -/
inductive CRes (α : Type) where
  | ok : α → CRes α
  | undef : CRes α
deriving DecidableEq

/-- Cell contents of a freshly linked slab of `n` items with block id `id`:
the loop `for (i = 0; i < n_items - 1; ++i) *(itemtype**)&sl[i] = &sl[i+1];`
followed by `*(itemtype**)&sl[n_items - 1] = NULL;`, acting on the fresh
uninitialized block.  (For `n = 0` the C loop underflows `size_t` and is
undefined; the model is only ever used with `n ≥ 1`.) -/
def slabCells (id n : Nat) : List Ptr :=
  ((List.range (n - 1)).foldl (fun cs i => cs.set i (some (id, i + 1)))
      (List.replicate n (none : Ptr))).set (n - 1) none

/-- The generated `prefix##get_slab(n_items, err)`: allocate a contiguous
block of `n` items from the collaborator; on failure return NULL; on
success link the items into an intrusive list and return the block base. -/
def get_slab (m : Mem) (n : Nat) : Ptr × Mem × Bool :=
  match csnip_mem_Alloc m n with
  | (none, m1, e) => (none, m1, e)
  | (some id, m1, e) => (some (id, 0), m1.setBlock id (slabCells id n), e)

/-- The generated `prefix##init_empty()`: returns `(pooltype) { NULL }`,
which in C zero-initializes every field. -/
def init_empty : Pool :=
  { slabs := none, n_slabs := 0, cap_slabs := 0, n_items := 0, first_free := none }

/-- The generated `prefix##init_with_cap(cap, err)`.  Note the C code calls
`csnip_mem_Alloc(1, slabs, *err)` for the slab index and then stores
`slabs[0] = sl` unconditionally: if that index allocation fails (`slabs`
is NULL) the store dereferences NULL, hence `undef`. -/
def init_with_cap (cap : Nat) (m : Mem) : CRes (Pool × Mem × Bool) :=
  match get_slab m cap with
  | (sl, m1, e1) =>
      match csnip_mem_Alloc m1 1 with
      | (none, _, _) => CRes.undef
      | (some id, m2, e2) =>
          match m2.write (id, 0) sl with
          | none => CRes.undef
          | some m3 =>
              CRes.ok ({ slabs := some (id, 0), n_slabs := 1, cap_slabs := 1,
                         n_items := 0, first_free := sl }, m3, e1 || e2)

/-- The deinit loop `for (i = 0; i < n_slabs; ++i) csnip_mem_Free(slabs[i]);`
unrolled over a count: free the slab pointers stored at index cells
`i, i+1, ...` of the block at `base`, `k` of them. -/
def freeSlabs (m : Mem) (base : Addr) (i : Nat) : Nat → CRes Mem
  | 0 => CRes.ok m
  | k + 1 =>
      match m.read (base.1, base.2 + i) with
      | none => CRes.undef
      | some sl => freeSlabs (csnip_mem_Free m sl) base (i + 1) k

/-- The generated `prefix##deinit(pool)`: free every recorded slab, free the
slab index, and reset `*pool = (pooltype) { NULL }`. -/
def deinit (p : Pool) (m : Mem) : CRes (Pool × Mem) :=
  if p.n_slabs = 0 then
    CRes.ok (init_empty, csnip_mem_Free m p.slabs)
  else
    match p.slabs with
    | none => CRes.undef
    | some base =>
        match freeSlabs m base 0 p.n_slabs with
        | CRes.undef => CRes.undef
        | CRes.ok m1 => CRes.ok (init_empty, csnip_mem_Free m1 p.slabs)

/-- The generated `prefix##alloc_item(pool, err)`.  If the free list is
empty, request a slab of `max(8, n_items)` items (note: the C code stores
the new slab only into `first_free`, never into the `slabs` index).  Then
pop the free-list head: `it = first_free; assert(it != NULL); ++n_items;
first_free = *(itemtype**)it; return it;`.  When the head is NULL the
assert fails (or, under NDEBUG, NULL is dereferenced): `undef`. -/
def alloc_item (p : Pool) (m : Mem) : CRes (Ptr × Pool × Mem × Bool) :=
  match (if p.first_free = none then
           match get_slab m (if p.n_items < 8 then 8 else p.n_items) with
           | (sl, m1, e) => ({ p with first_free := sl }, m1, e)
         else (p, m, false)) with
  | (p1, m1, e1) =>
      match p1.first_free with
      | none => CRes.undef
      | some a =>
          match m1.read a with
          | none => CRes.undef
          | some nxt =>
              CRes.ok (some a,
                { p1 with n_items := p1.n_items + 1, first_free := nxt }, m1, e1)

/-- The generated `prefix##free_item(pool, e)`:
`*(itemtype**)e = pool->first_free; pool->first_free = e;`. -/
def free_item (p : Pool) (m : Mem) (e : Addr) : CRes (Pool × Mem) :=
  match m.write e p.first_free with
  | none => CRes.undef
  | some m1 => CRes.ok ({ p with first_free := some e }, m1)

/-! ### Basic list and memory lemmas -/

theorem getElem?_isSome_iff {α : Type} (l : List α) (i : Nat) :
    l[i]?.isSome ↔ i < l.length := by
  constructor
  · intro h
    rcases Option.isSome_iff_exists.1 h with ⟨a, ha⟩
    rcases List.getElem?_eq_some_iff.1 ha with ⟨h2, _⟩
    exact h2
  · intro h
    simp [List.getElem?_eq_getElem h]

/-- Well-formedness of the allocator state: live block ids are below the
fresh-id counter and are pairwise distinct. -/
def MemWF (m : Mem) : Prop :=
  (∀ b ∈ m.blocks, b.1 < m.nextId) ∧ (m.blocks.map Prod.fst).Nodup

theorem findBlock_mem {m : Mem} {id : Nat} {cells : List Ptr}
    (h : m.findBlock id = some cells) : ∃ b ∈ m.blocks, b.1 = id ∧ b.2 = cells := by
  unfold Mem.findBlock at h
  rcases Option.map_eq_some'.1 h with ⟨b, hb, hb2⟩
  exact ⟨b, List.mem_of_find?_eq_some hb, by simpa using List.find?_some hb, hb2⟩

theorem findBlock_lt_nextId {m : Mem} {id : Nat} {cells : List Ptr}
    (hwf : MemWF m) (h : m.findBlock id = some cells) : id < m.nextId := by
  rcases findBlock_mem h with ⟨b, hb, rfl, _⟩
  exact hwf.1 b hb

theorem read_isSome_lt {m : Mem} {a : Addr}
    (hwf : MemWF m) (h : (m.read a).isSome) : a.1 < m.nextId := by
  unfold Mem.read at h
  rcases hfb : m.findBlock a.1 with _ | cells
  · rw [hfb] at h; simp at h
  · exact findBlock_lt_nextId hwf hfb

theorem fst_replace (id : Nat) (cells : List Ptr) (b : Nat × List Ptr) :
    (if b.1 = id then (b.1, cells) else b).1 = b.1 := by
  split <;> rfl

theorem findBlock_setBlock (m : Mem) (id : Nat) (cells : List Ptr) (id2 : Nat) :
    (m.setBlock id cells).findBlock id2 =
      (m.findBlock id2).map (fun cs => if id2 = id then cells else cs) := by
  unfold Mem.setBlock Mem.findBlock
  simp only [List.find?_map]
  have hp : ((fun b : Nat × List Ptr => b.1 == id2) ∘
      (fun b => if b.1 = id then (b.1, cells) else b)) =
      (fun b : Nat × List Ptr => b.1 == id2) := by
    funext b
    simp [Function.comp, fst_replace]
  rw [hp]
  rcases hf : m.blocks.find? (fun b => b.1 == id2) with _ | b
  · rw [hf]
    simp
  · have hb1 : b.1 = id2 := by simpa using List.find?_some hf
    rw [hf]
    simp only [Option.map_some', Option.map_map, Function.comp]
    rw [hb1]
    by_cases hid : id2 = id
    · simp [hid]
    · simp [hid]

theorem findBlock_setBlock_ne (m : Mem) {id id2 : Nat} (cells : List Ptr)
    (h : id2 ≠ id) : (m.setBlock id cells).findBlock id2 = m.findBlock id2 := by
  rw [findBlock_setBlock]
  rcases hf : m.findBlock id2 with _ | cs
  · rfl
  · simp [h]

theorem findBlock_setBlock_self (m : Mem) {id : Nat} (cells : List Ptr)
    {old : List Ptr} (h : m.findBlock id = some old) :
    (m.setBlock id cells).findBlock id = some cells := by
  rw [findBlock_setBlock, h]
  simp

theorem memWF_setBlock {m : Mem} (hwf : MemWF m) (id : Nat) (cells : List Ptr) :
    MemWF (m.setBlock id cells) := by
  constructor
  · intro b hb
    rcases List.mem_map.1 hb with ⟨b0, hb0, rfl⟩
    rw [fst_replace]
    exact hwf.1 b0 hb0
  · have : (m.setBlock id cells).blocks.map Prod.fst = m.blocks.map Prod.fst := by
      unfold Mem.setBlock
      simp only [List.map_map]
      exact List.map_congr_left (fun b _ => fst_replace id cells b)
    rw [this]
    exact hwf.2

theorem alloc_success {m : Mem} {n : Nat} {id : Nat} {m1 : Mem} {e : Bool}
    (h : csnip_mem_Alloc m n = (some id, m1, e)) :
    id = m.nextId ∧ m1.nextId = m.nextId + 1 ∧
      m1.blocks = m.blocks ++ [(m.nextId, List.replicate n none)] ∧ e = false := by
  unfold csnip_mem_Alloc at h
  rcases hor : m.oracle with _ | ⟨b, rest⟩ <;> rw [hor] at h
  · rcases h with ⟨rfl, rfl, rfl⟩
    exact ⟨rfl, rfl, rfl, rfl⟩
  · by_cases hb : b = true
    · rw [hb] at h
      simp only [if_true] at h
      rcases h with ⟨rfl, rfl, rfl⟩
      exact ⟨rfl, rfl, rfl, rfl⟩
    · rw [Bool.not_eq_true] at hb
      rw [hb] at h
      simp at h

theorem alloc_fail {m : Mem} {n : Nat} {m1 : Mem} {e : Bool}
    (h : csnip_mem_Alloc m n = (none, m1, e)) :
    m1.blocks = m.blocks ∧ m1.nextId = m.nextId ∧ e = true := by
  unfold csnip_mem_Alloc at h
  rcases hor : m.oracle with _ | ⟨b, rest⟩ <;> rw [hor] at h
  · simp at h
  · by_cases hb : b = true
    · rw [hb] at h
      simp at h
    · rw [Bool.not_eq_true] at hb
      rw [hb] at h
      simp only [if_false, Bool.false_eq_true] at h
      rcases h with ⟨rfl, rfl⟩
      exact ⟨rfl, rfl, rfl⟩

theorem memWF_alloc {m : Mem} {n : Nat} {id : Nat} {m1 : Mem} {e : Bool}
    (hwf : MemWF m) (h : csnip_mem_Alloc m n = (some id, m1, e)) : MemWF m1 := by
  rcases alloc_success h with ⟨rfl, hnext, hblocks, _⟩
  constructor
  · intro b hb
    rw [hblocks] at hb
    rw [hnext]
    rcases List.mem_append.1 hb with hb | hb
    · exact Nat.lt_succ_of_lt (hwf.1 b hb)
    · simp at hb
      rw [hb]
      exact Nat.lt_succ_self _
  · rw [hblocks, List.map_append]
    simp only [List.map_cons, List.map_nil]
    rw [List.nodup_append]
    refine ⟨hwf.2, List.nodup_singleton _, ?_⟩
    intro x hx hx2
    simp at hx2
    rcases List.mem_map.1 hx with ⟨b, hb, rfl⟩
    exact absurd (hwf.1 b hb) (by rw [hx2]; exact Nat.lt_irrefl _)

theorem findBlock_alloc_old {m : Mem} {n : Nat} {id : Nat} {m1 : Mem} {e : Bool}
    (h : csnip_mem_Alloc m n = (some id, m1, e)) (id2 : Nat)
    (h2 : id2 ≠ m.nextId) : m1.findBlock id2 = m.findBlock id2 := by
  rcases alloc_success h with ⟨rfl, _, hblocks, _⟩
  unfold Mem.findBlock
  rw [hblocks, List.find?_append]
  have hsing : List.find? (fun b => b.1 == id2)
      [(m.nextId, List.replicate n (none : Ptr))] = none := by
    rw [List.find?_eq_none]
    intro x hx
    simp only [List.mem_singleton] at hx
    subst hx
    simp only [beq_iff_eq]
    exact fun hc => h2 hc.symm
  rw [hsing, Option.or_none]

theorem findBlock_alloc_fresh {m : Mem} {n : Nat} {id : Nat} {m1 : Mem} {e : Bool}
    (hwf : MemWF m) (h : csnip_mem_Alloc m n = (some id, m1, e)) :
    m1.findBlock m.nextId = some (List.replicate n none) := by
  rcases alloc_success h with ⟨rfl, _, hblocks, _⟩
  unfold Mem.findBlock
  rw [hblocks, List.find?_append]
  have hnone : List.find? (fun b => b.1 == m.nextId) m.blocks = none := by
    rw [List.find?_eq_none]
    intro b hb
    simp only [beq_iff_eq]
    exact Nat.ne_of_lt (hwf.1 b hb)
  rw [hnone]
  simp [List.find?_cons]

theorem write_eq_some {m : Mem} {a : Addr} {v : Ptr} {m1 : Mem}
    (h : m.write a v = some m1) :
    ∃ cells, m.findBlock a.1 = some cells ∧ a.2 < cells.length ∧
      m1 = m.setBlock a.1 (cells.set a.2 v) := by
  unfold Mem.write at h
  rcases hfb : m.findBlock a.1 with _ | cells <;> rw [hfb] at h
  · simp at h
  · rw [Option.some_bind] at h
    by_cases hlen : a.2 < cells.length
    · rw [if_pos hlen] at h
      exact ⟨cells, rfl, hlen, (Option.some_inj.1 h).symm⟩
    · rw [if_neg hlen] at h
      simp at h

theorem write_of_read_isSome {m : Mem} {a : Addr} (v : Ptr)
    (h : (m.read a).isSome) : ∃ m1, m.write a v = some m1 := by
  unfold Mem.read at h
  unfold Mem.write
  rcases hfb : m.findBlock a.1 with _ | cells
  all_goals simp only [hfb, Option.some_bind, Option.none_bind] at h ⊢
  · simp at h
  · have hlen : a.2 < cells.length := (getElem?_isSome_iff cells a.2).1 h
    rw [if_pos hlen]
    exact ⟨_, rfl⟩

theorem read_write_self {m : Mem} {a : Addr} {v : Ptr} {m1 : Mem}
    (h : m.write a v = some m1) : m1.read a = some v := by
  rcases write_eq_some h with ⟨cells, hfb, hlen, rfl⟩
  unfold Mem.read
  rw [findBlock_setBlock_self m _ hfb, Option.some_bind]
  rw [List.getElem?_set_eq hlen]

theorem read_write_ne {m : Mem} {a : Addr} {v : Ptr} {m1 : Mem} {a2 : Addr}
    (h : m.write a v = some m1) (hne : a2 ≠ a) : m1.read a2 = m.read a2 := by
  rcases write_eq_some h with ⟨cells, hfb, hlen, rfl⟩
  unfold Mem.read
  by_cases hb : a2.1 = a.1
  · rw [hb, findBlock_setBlock_self m _ hfb, hfb, Option.some_bind, Option.some_bind]
    have hidx : a2.2 ≠ a.2 := by
      intro hcon
      exact hne (Prod.ext hb hcon)
    rw [List.getElem?_set_ne (fun hc => hidx hc.symm)]
  · rw [findBlock_setBlock_ne m _ hb]

theorem read_isSome_write {m : Mem} {a : Addr} {v : Ptr} {m1 : Mem}
    (h : m.write a v = some m1) (a2 : Addr) :
    (m1.read a2).isSome ↔ (m.read a2).isSome := by
  by_cases hne : a2 = a
  · subst hne
    rw [read_write_self h]
    rcases write_eq_some h with ⟨cells, hfb, hlen, _⟩
    have : m.read a2 = some cells[a2.2] := by
      unfold Mem.read
      rw [hfb, Option.some_bind]
      exact List.getElem?_eq_getElem hlen
    rw [this]
    simp
  · rw [read_write_ne h hne]

theorem write_nextId {m : Mem} {a : Addr} {v : Ptr} {m1 : Mem}
    (h : m.write a v = some m1) : m1.nextId = m.nextId := by
  rcases write_eq_some h with ⟨cells, _, _, rfl⟩
  rfl

theorem memWF_write {m : Mem} {a : Addr} {v : Ptr} {m1 : Mem}
    (hwf : MemWF m) (h : m.write a v = some m1) : MemWF m1 := by
  rcases write_eq_some h with ⟨cells, _, _, rfl⟩
  exact memWF_setBlock hwf _ _

/-! ### Characterization of the slab-linking loop -/

theorem foldl_set_length (l : List Nat) (cs : List Ptr) (f : Nat → Ptr) :
    (l.foldl (fun cs i => cs.set i (f i)) cs).length = cs.length := by
  induction l generalizing cs with
  | nil => rfl
  | cons x xs ih =>
      simp only [List.foldl_cons]
      rw [ih, List.length_set]

theorem foldl_set_range_get (id : Nat) (k : Nat) (cs : List Ptr) (hk : k ≤ cs.length)
    (j : Nat) :
    ((List.range k).foldl (fun cs i => cs.set i (some (id, i + 1))) cs)[j]? =
      if j < k then some (some (id, j + 1)) else cs[j]? := by
  induction k with
  | zero => simp
  | succ k ih =>
      rw [List.range_succ, List.foldl_append]
      simp only [List.foldl_cons, List.foldl_nil]
      have hlen : ((List.range k).foldl
          (fun cs i => cs.set i (some (id, i + 1))) cs).length = cs.length :=
        foldl_set_length _ _ _
      by_cases hj : j = k
      · subst hj
        rw [List.getElem?_set_eq (by rw [hlen]; omega)]
        simp
      · rw [List.getElem?_set_ne (fun hc => hj hc.symm)]
        rw [ih (by omega)]
        by_cases hjk : j < k
        · rw [if_pos hjk, if_pos (by omega)]
        · rw [if_neg hjk, if_neg (by omega)]

theorem slabCells_length (id n : Nat) : (slabCells id n).length = n := by
  unfold slabCells
  rw [List.length_set, foldl_set_length, List.length_replicate]

theorem slabCells_get (id n i : Nat) (h : i < n) :
    (slabCells id n)[i]? = some (if i + 1 = n then none else some (id, i + 1)) := by
  unfold slabCells
  have hlen : ((List.range (n - 1)).foldl
      (fun cs i => cs.set i (some (id, i + 1)))
      (List.replicate n (none : Ptr))).length = n := by
    rw [foldl_set_length, List.length_replicate]
  by_cases hi : i = n - 1
  · subst hi
    rw [List.getElem?_set_eq (by omega)]
    have : n - 1 + 1 = n := by omega
    rw [if_pos this]
  · rw [List.getElem?_set_ne (fun hc => hi hc.symm)]
    rw [foldl_set_range_get id (n - 1) _ (by rw [List.length_replicate]; omega) i]
    rw [if_pos (by omega), if_neg (by omega)]

/-! ### Characterization of get_slab -/

theorem get_slab_success {m : Mem} {n : Nat} {a : Addr} {m1 : Mem} {e : Bool}
    (hwf : MemWF m) (h : get_slab m n = (some a, m1, e)) :
    a = (m.nextId, 0) ∧ e = false ∧ MemWF m1 ∧ m1.nextId = m.nextId + 1 ∧
      m1.findBlock m.nextId = some (slabCells m.nextId n) ∧
      ∀ id2, id2 ≠ m.nextId → m1.findBlock id2 = m.findBlock id2 := by
  unfold get_slab at h
  rcases halloc : csnip_mem_Alloc m n with ⟨optid, ma, ea⟩
  rw [halloc] at h
  rcases optid with _ | id
  · simp at h
  · rcases alloc_success halloc with ⟨rfl, hnext, hblocks, rfl⟩
    simp only at h
    rcases h with ⟨⟨rfl, rfl⟩, rfl, rfl⟩
    refine ⟨rfl, rfl, memWF_setBlock (memWF_alloc hwf halloc) _ _, hnext, ?_, ?_⟩
    · exact findBlock_setBlock_self ma _ (findBlock_alloc_fresh hwf halloc)
    · intro id2 h2
      rw [findBlock_setBlock_ne ma _ h2]
      exact findBlock_alloc_old halloc id2 h2

theorem get_slab_fail {m : Mem} {n : Nat} {m1 : Mem} {e : Bool}
    (h : get_slab m n = (none, m1, e)) :
    m1.blocks = m.blocks ∧ m1.nextId = m.nextId ∧ e = true := by
  unfold get_slab at h
  rcases halloc : csnip_mem_Alloc m n with ⟨optid, ma, ea⟩
  rw [halloc] at h
  rcases optid with _ | id
  · simp only at h
    rcases h with ⟨rfl, rfl⟩
    exact alloc_fail halloc
  · simp at h

theorem get_slab_read {m : Mem} {n : Nat} {a : Addr} {m1 : Mem} {e : Bool}
    (hwf : MemWF m) (h : get_slab m n = (some a, m1, e)) (i : Nat) (hi : i < n) :
    m1.read (m.nextId, i) =
      some (if i + 1 = n then none else some (m.nextId, i + 1)) := by
  rcases get_slab_success hwf h with ⟨_, _, _, _, hfb, _⟩
  unfold Mem.read
  rw [hfb, Option.some_bind]
  exact slabCells_get m.nextId n i hi

theorem read_get_slab_frame {m : Mem} {n : Nat} {a : Addr} {m1 : Mem} {e : Bool}
    (hwf : MemWF m) (h : get_slab m n = (some a, m1, e)) (a2 : Addr)
    (h2 : a2.1 ≠ m.nextId) : m1.read a2 = m.read a2 := by
  rcases get_slab_success hwf h with ⟨_, _, _, _, _, hold⟩
  unfold Mem.read
  rw [hold a2.1 h2]

/-! ### Free-list chains -/

/-- The free list reachable from a head pointer: `Chain m p l` holds when
following the overlaid next pointers from `p` visits exactly the items
in `l` and ends at NULL. -/
inductive Chain (m : Mem) : Ptr → List Addr → Prop where
  | nil : Chain m none []
  | cons {a : Addr} {v : Ptr} {l : List Addr} :
      m.read a = some v → Chain m v l → Chain m (some a) (a :: l)

theorem chain_frame {m m2 : Mem} {p : Ptr} {l : List Addr}
    (hr : ∀ a ∈ l, m2.read a = m.read a) (h : Chain m p l) : Chain m2 p l := by
  induction h with
  | nil => exact Chain.nil
  | cons hread htail ih =>
      refine Chain.cons ?_ (ih (fun a ha => hr a (List.mem_cons_of_mem _ ha)))
      rw [hr _ (List.mem_cons_self _ _)]
      exact hread

theorem chain_valid {m : Mem} {p : Ptr} {l : List Addr}
    (h : Chain m p l) : ∀ a ∈ l, (m.read a).isSome := by
  induction h with
  | nil => intro a ha; simp at ha
  | cons hread _ ih =>
      intro a ha
      rcases List.mem_cons.1 ha with rfl | ha
      · rw [hread]; rfl
      · exact ih a ha

theorem chain_head {m : Mem} {a : Addr} {l : List Addr}
    (h : Chain m (some a) l) :
    ∃ v l2, l = a :: l2 ∧ m.read a = some v ∧ Chain m v l2 := by
  cases h with
  | cons hread htail => exact ⟨_, _, rfl, hread, htail⟩

/-- The linked cells of a fresh slab form a chain from any position. -/
theorem chain_range (m : Mem) (id g : Nat)
    (hread : ∀ i, i < g →
      m.read (id, i) = some (if i + 1 = g then none else some (id, i + 1))) :
    ∀ k j, j + k = g →
      Chain m (if k = 0 then none else some (id, j))
        ((List.range' j k).map (fun i => (id, i))) := by
  intro k
  induction k with
  | zero =>
      intro j hj
      simp only [if_pos rfl, List.range'_zero, List.map_nil]
      exact Chain.nil
  | succ k ih =>
      intro j hj
      rw [if_neg (Nat.succ_ne_zero k), List.range'_succ, List.map_cons]
      have hjg : j < g := by omega
      refine Chain.cons (hread j hjg) ?_
      have hnext := ih (j + 1) (by omega)
      rcases Nat.eq_zero_or_pos k with rfl | hk
      · have hj1 : j + 1 = g := by omega
        rw [if_pos rfl] at hnext
        rw [if_pos hj1]
        exact hnext
      · have hj1 : ¬(j + 1 = g) := by omega
        rw [if_neg (by omega)] at hnext
        rw [if_neg hj1]
        exact hnext

/-! ### Operation sequences and the pool invariant -/

/-- A pool configuration: the pool struct, the allocator state, and the
(ghost) list of currently-live acquired items. -/
structure Config where
  pool : Pool
  mem : Mem
  live : List Addr

/-- The pool invariant, parameterized by the explicit free-list contents. -/
structure PoolInv (c : Config) (fl : List Addr) : Prop where
  memwf : MemWF c.mem
  chain : Chain c.mem c.pool.first_free fl
  fl_nodup : fl.Nodup
  fl_live : ∀ x ∈ fl, x ∉ c.live
  live_nodup : c.live.Nodup
  live_valid : ∀ x ∈ c.live, (c.mem.read x).isSome

/-- Popping the free-list head (the non-growth branch of alloc_item). -/
theorem alloc_pop {c : Config} {a : Addr} {fl : List Addr}
    (h : PoolInv c (a :: fl)) :
    ∃ v, c.mem.read a = some v ∧
      alloc_item c.pool c.mem =
        CRes.ok (some a,
          { c.pool with n_items := c.pool.n_items + 1, first_free := v },
          c.mem, false) ∧
      PoolInv ⟨{ c.pool with n_items := c.pool.n_items + 1, first_free := v },
           c.mem, a :: c.live⟩ fl := by
  have hchain := h.chain
  rcases hhd : c.pool.first_free with _ | a0
  · rw [hhd] at hchain
    cases hchain
  · rw [hhd] at hchain
    rcases chain_head hchain with ⟨v, l2, heq, hread, htail⟩
    rcases List.cons.injEq .. ▸ heq with ⟨rfl, rfl⟩
    refine ⟨v, hread, ?_, ?_⟩
    · unfold alloc_item
      rw [if_neg (by rw [hhd]; simp)]
      simp only [hhd, hread]
    · have hanotin : a ∉ c.live := h.fl_live a (List.mem_cons_self _ _)
      have hfl2 : fl.Nodup := (List.nodup_cons.1 h.fl_nodup).2
      have hanotfl : a ∉ fl := (List.nodup_cons.1 h.fl_nodup).1
      refine ⟨h.memwf, htail, hfl2, ?_, ?_, ?_⟩
      · intro x hx
        intro hcon
        rcases List.mem_cons.1 hcon with rfl | hcon
        · exact hanotfl hx
        · exact h.fl_live x (List.mem_cons_of_mem _ hx) hcon
      · exact List.nodup_cons.2 ⟨hanotin, h.live_nodup⟩
      · intro x hx
        rcases List.mem_cons.1 hx with rfl | hx
        · rw [hread]; rfl
        · exact h.live_valid x hx

theorem chain_nil_head {m : Mem} {p : Ptr} (h : Chain m p []) : p = none := by
  cases h
  rfl

/-- The growth branch of alloc_item: with an empty free list, a successful
call allocates a fresh slab, returns its first item, and leaves the tail
of the slab as the new free list. -/
theorem alloc_grow {c : Config} {r : Ptr} {p1 : Pool} {m1 : Mem} {e : Bool}
    (h : PoolInv c []) (ha : alloc_item c.pool c.mem = CRes.ok (r, p1, m1, e)) :
    r = some (c.mem.nextId, 0) ∧ e = false ∧
      get_slab c.mem (if c.pool.n_items < 8 then 8 else c.pool.n_items) =
        (some (c.mem.nextId, 0), m1, false) ∧
      p1 = { c.pool with n_items := c.pool.n_items + 1, first_free := some (c.mem.nextId, 1) } ∧
      PoolInv ⟨p1, m1, (c.mem.nextId, 0) :: c.live⟩
        ((List.range' 1 ((if c.pool.n_items < 8 then 8 else c.pool.n_items) - 1)).map
          (fun i => (c.mem.nextId, i))) := by
  have hff : c.pool.first_free = none := chain_nil_head h.chain
  have hg8 : 8 ≤ (if c.pool.n_items < 8 then 8 else c.pool.n_items) := by
    split <;> omega
  unfold alloc_item at ha
  rw [if_pos hff] at ha
  rcases hgs : get_slab c.mem (if c.pool.n_items < 8 then 8 else c.pool.n_items)
    with ⟨sl, mg, eg⟩
  rw [hgs] at ha
  rcases sl with _ | a
  · simp at ha
  · rcases get_slab_success h.memwf hgs with ⟨rfl, rfl, hwf1, hnext1, hfb, hold⟩
    have hread0 : mg.read (c.mem.nextId, 0) = some (some (c.mem.nextId, 1)) := by
      have := get_slab_read h.memwf hgs 0 (by omega)
      rw [if_neg (by omega)] at this
      exact this
    simp only [hread0] at ha
    rcases ha with ⟨rfl, rfl, rfl, rfl⟩
    have hfresh : ∀ x ∈ c.live, x.1 ≠ c.mem.nextId := by
      intro x hx
      exact Nat.ne_of_lt (read_isSome_lt h.memwf (h.live_valid x hx))
    have hframe : ∀ x ∈ c.live, m1.read x = c.mem.read x := by
      intro x hx
      exact read_get_slab_frame h.memwf hgs x (hfresh x hx)
    refine ⟨rfl, rfl, rfl, rfl, ?_⟩
    refine ⟨hwf1, ?_, ?_, ?_, ?_, ?_⟩
    · have hchain := chain_range m1 c.mem.nextId
        (if c.pool.n_items < 8 then 8 else c.pool.n_items)
        (fun i hi => get_slab_read h.memwf hgs i hi)
        ((if c.pool.n_items < 8 then 8 else c.pool.n_items) - 1) 1 (by omega)
      rw [if_neg (by omega)] at hchain
      exact hchain
    · refine List.Nodup.map ?_ (List.nodup_range' _ _)
      intro x y hxy
      exact (Prod.mk.injEq .. ▸ hxy).2
    · intro x hx
      rcases List.mem_map.1 hx with ⟨i, hi, rfl⟩
      have hi1 : 1 ≤ i := by
        have := List.mem_range'_1.1 hi
        omega
      intro hcon
      rcases List.mem_cons.1 hcon with hcon | hcon
      · have : i = 0 := congrArg Prod.snd hcon
        omega
      · exact hfresh _ hcon rfl
    · refine List.nodup_cons.2 ⟨?_, h.live_nodup⟩
      intro hcon
      exact hfresh _ hcon rfl
    · intro x hx
      rcases List.mem_cons.1 hx with rfl | hx
      · rw [hread0]; rfl
      · rw [hframe x hx]
        exact h.live_valid x hx

theorem alloc_preserve {c : Config} {fl : List Addr} {r : Ptr} {p1 : Pool}
    {m1 : Mem} {e : Bool} (h : PoolInv c fl)
    (ha : alloc_item c.pool c.mem = CRes.ok (r, p1, m1, e)) :
    ∃ a fl2, r = some a ∧ a ∉ c.live ∧ PoolInv ⟨p1, m1, a :: c.live⟩ fl2 := by
  rcases fl with _ | ⟨a, fl⟩
  · rcases alloc_grow h ha with ⟨rfl, _, _, rfl, hinv⟩
    refine ⟨_, _, rfl, ?_, hinv⟩
    intro hcon
    exact Nat.ne_of_lt (read_isSome_lt h.memwf (h.live_valid _ hcon)) rfl
  · rcases alloc_pop h with ⟨v, hread, haeq, hinv⟩
    rw [haeq] at ha
    rcases ha with ⟨rfl, rfl, rfl, rfl⟩
    exact ⟨a, fl, rfl, h.fl_live a (List.mem_cons_self _ _), hinv⟩

theorem free_preserve {c : Config} {fl : List Addr} {x : Addr}
    (h : PoolInv c fl) (hx : x ∈ c.live) :
    ∃ m1, free_item c.pool c.mem x =
        CRes.ok ({ c.pool with first_free := some x }, m1) ∧
      PoolInv ⟨{ c.pool with first_free := some x }, m1, c.live.erase x⟩ (x :: fl) := by
  rcases write_of_read_isSome c.pool.first_free (h.live_valid x hx) with ⟨m1, hw⟩
  refine ⟨m1, ?_, ?_⟩
  · unfold free_item
    rw [hw]
  · have hxnotfl : x ∉ fl := fun hc => h.fl_live x hc hx
    have hframe : ∀ a ∈ fl, m1.read a = c.mem.read a := by
      intro a haf
      exact read_write_ne hw (fun hc => hxnotfl (hc ▸ haf))
    refine ⟨memWF_write h.memwf hw, ?_, ?_, ?_, ?_, ?_⟩
    · exact Chain.cons (read_write_self hw) (chain_frame hframe h.chain)
    · exact List.nodup_cons.2 ⟨hxnotfl, h.fl_nodup⟩
    · intro y hy
      rcases List.mem_cons.1 hy with rfl | hy
      · exact h.live_nodup.not_mem_erase
      · intro hcon
        exact h.fl_live y hy (List.mem_of_mem_erase hcon)
    · exact h.live_nodup.erase x
    · intro y hy
      rw [read_isSome_write hw y]
      exact h.live_valid y (List.mem_of_mem_erase hy)

/-- One pool operation at the level of the spec's sequences: a successful
acquire, or a release of a currently-live item (the release
precondition). -/
inductive Step : Config → Config → Prop where
  | acquire {c : Config} {a : Addr} {p1 : Pool} {m1 : Mem} {e : Bool} :
      alloc_item c.pool c.mem = CRes.ok (some a, p1, m1, e) →
      Step c ⟨p1, m1, a :: c.live⟩
  | release {c : Config} {x : Addr} {p1 : Pool} {m1 : Mem} :
      x ∈ c.live → free_item c.pool c.mem x = CRes.ok (p1, m1) →
      Step c ⟨p1, m1, c.live.erase x⟩

/-- Pool configurations reachable from a freshly constructed pool by
acquire/release sequences respecting the release precondition. -/
inductive Reach : Config → Prop where
  | empty {m : Mem} : MemWF m → Reach ⟨init_empty, m, []⟩
  | withCap {cap : Nat} {m : Mem} {p : Pool} {m1 : Mem} :
      MemWF m → 0 < cap →
      init_with_cap cap m = CRes.ok (p, m1, false) →
      Reach ⟨p, m1, []⟩
  | step {c c2 : Config} : Reach c → Step c c2 → Reach c2

theorem read_alloc_frame {m : Mem} {n : Nat} {id : Nat} {m1 : Mem} {e : Bool}
    (h : csnip_mem_Alloc m n = (some id, m1, e)) (a : Addr) (h2 : a.1 ≠ m.nextId) :
    m1.read a = m.read a := by
  unfold Mem.read
  rw [findBlock_alloc_old h a.1 h2]

theorem init_with_cap_inv {cap : Nat} {m : Mem} {p : Pool} {m1 : Mem}
    (hwf : MemWF m) (hcap : 0 < cap)
    (h : init_with_cap cap m = CRes.ok (p, m1, false)) :
    ∃ fl, PoolInv ⟨p, m1, []⟩ fl := by
  unfold init_with_cap at h
  rcases hgs : get_slab m cap with ⟨sl, ma, e1⟩
  rw [hgs] at h
  dsimp only at h
  rcases halloc : csnip_mem_Alloc ma 1 with ⟨optid, mb, e2⟩
  rw [halloc] at h
  rcases optid with _ | id
  · simp at h
  · dsimp only at h
    rcases hw : mb.write (id, 0) sl with _ | m3
    · rw [hw] at h
      simp at h
    · rw [hw] at h
      have hinj := CRes.ok.inj h
      have hpool : p = { slabs := some (id, 0), n_slabs := 1, cap_slabs := 1, n_items := 0, first_free := sl } :=
        (congrArg Prod.fst hinj).symm
      have hm : m1 = m3 := (congrArg (fun t => t.2.1) hinj).symm
      have he : (e1 || e2) = false := congrArg (fun t => t.2.2) hinj
      subst hpool
      subst hm
      rcases Bool.or_eq_false_iff.1 he with ⟨he1, he2⟩
      rcases sl with _ | a
      · rcases get_slab_fail hgs with ⟨_, _, hcon⟩
        rw [hcon] at he1
        cases he1
      · rcases get_slab_success hwf hgs with ⟨rfl, _, hwfa, hnexta, hfba, holda⟩
        rcases alloc_success halloc with ⟨rfl, hnextb, hblocksb, _⟩
        have hframe : ∀ y ∈ (List.range' 0 cap).map (fun i => ((m.nextId, i) : Addr)),
            m1.read y = ma.read y := by
          intro y hy
          rcases List.mem_map.1 hy with ⟨i, _, rfl⟩
          have h1 : mb.read (m.nextId, i) = ma.read (m.nextId, i) :=
            read_alloc_frame halloc _ (by simp only []; omega)
          have h2 : m1.read (m.nextId, i) = mb.read (m.nextId, i) := by
            refine read_write_ne hw ?_
            intro hc
            have := congrArg Prod.fst hc
            simp only [] at this
            omega
          rw [h2, h1]
        have hchain : Chain ma (some (m.nextId, 0))
            ((List.range' 0 cap).map (fun i => ((m.nextId, i) : Addr))) := by
          have := chain_range ma m.nextId cap
            (fun i hi => get_slab_read hwf hgs i hi) cap 0 (by omega)
          rw [if_neg (by omega)] at this
          exact this
        refine ⟨(List.range' 0 cap).map (fun i => ((m.nextId, i) : Addr)),
          memWF_write (memWF_alloc hwfa halloc) hw, ?_, ?_, ?_, ?_, ?_⟩
        · exact chain_frame hframe hchain
        · refine List.Nodup.map ?_ (List.nodup_range' _ _)
          intro x y hxy
          exact (Prod.mk.injEq .. ▸ hxy).2
        · intro x _
          simp
        · exact List.nodup_nil
        · intro x hx
          simp at hx

theorem reach_inv {c : Config} (h : Reach c) : ∃ fl, PoolInv c fl := by
  induction h with
  | empty hwf =>
      exact ⟨[], ⟨hwf, Chain.nil, List.nodup_nil, by simp, List.nodup_nil, by simp⟩⟩
  | withCap hwf hcap hinit => exact init_with_cap_inv hwf hcap hinit
  | step _ hstep ih =>
      rcases ih with ⟨fl, hinv⟩
      cases hstep with
      | acquire ha =>
          rcases alloc_preserve hinv ha with ⟨a2, fl2, heq, _, hinv2⟩
          cases heq
          exact ⟨fl2, hinv2⟩
      | release hx hf =>
          rcases free_preserve hinv hx with ⟨m1, hfeq, hinv2⟩
          rw [hf] at hfeq
          rcases hfeq with ⟨rfl, rfl⟩
          exact ⟨_, hinv2⟩

/-- Run alloc_item `n` times, collecting the acquired items in order. -/
def allocN : Nat → Pool → Mem → CRes (List Addr × Pool × Mem)
  | 0, p, m => CRes.ok ([], p, m)
  | n + 1, p, m =>
      match alloc_item p m with
      | CRes.undef => CRes.undef
      | CRes.ok (none, _, _, _) => CRes.undef
      | CRes.ok (some a, p1, m1, _) =>
          match allocN n p1 m1 with
          | CRes.undef => CRes.undef
          | CRes.ok (l, p2, m2) => CRes.ok (a :: l, p2, m2)

/-- Release the listed items in order. -/
def freeAll : List Addr → Pool → Mem → CRes (Pool × Mem)
  | [], p, m => CRes.ok (p, m)
  | x :: xs, p, m =>
      match free_item p m x with
      | CRes.undef => CRes.undef
      | CRes.ok (p1, m1) => freeAll xs p1 m1

theorem allocN_inv {N : Nat} {c : Config} {fl : List Addr} {items : List Addr}
    {p1 : Pool} {m1 : Mem} (h : PoolInv c fl)
    (ha : allocN N c.pool c.mem = CRes.ok (items, p1, m1)) :
    ∃ fl2, PoolInv ⟨p1, m1, items.reverse ++ c.live⟩ fl2 ∧ items.length = N := by
  induction N generalizing c fl items with
  | zero =>
      unfold allocN at ha
      rcases ha with ⟨rfl, rfl, rfl⟩
      exact ⟨fl, by simpa using h, rfl⟩
  | succ n ih =>
      unfold allocN at ha
      cases hone : alloc_item c.pool c.mem with
      | undef => rw [hone] at ha; simp at ha
      | ok val =>
          rw [hone] at ha
          rcases val with ⟨r, pa, ma, ea⟩
          rcases r with _ | a
          · simp at ha
          · dsimp only at ha
            cases hrec : allocN n pa ma with
            | undef => rw [hrec] at ha; simp at ha
            | ok val2 =>
                rw [hrec] at ha
                rcases val2 with ⟨l, p2, m2⟩
                dsimp only at ha
                rcases ha with ⟨rfl, rfl, rfl⟩
                rcases alloc_preserve h hone with ⟨a2, fl2, heq, _, hinv2⟩
                cases heq
                rcases ih hinv2 hrec with ⟨fl3, hinv3, hlen⟩
                refine ⟨fl3, ?_, by simp [hlen]⟩
                have heqlist : (a :: l).reverse ++ c.live =
                    l.reverse ++ (a :: c.live) := by
                  simp
                rw [heqlist]
                exact hinv3

theorem freeAll_inv {l : List Addr} {c : Config} {fl : List Addr}
    (h : PoolInv c fl) (hnd : l.Nodup) (hsub : ∀ x ∈ l, x ∈ c.live) :
    ∃ p2 m2 live2, freeAll l c.pool c.mem = CRes.ok (p2, m2) ∧
      PoolInv ⟨p2, m2, live2⟩ (l.reverse ++ fl) := by
  induction l generalizing c fl with
  | nil => exact ⟨c.pool, c.mem, c.live, rfl, by simpa using h⟩
  | cons x xs ih =>
      rcases free_preserve h (hsub x (List.mem_cons_self _ _)) with ⟨m1, hfeq, hinv1⟩
      have hnd2 : xs.Nodup := (List.nodup_cons.1 hnd).2
      have hxnot : x ∉ xs := (List.nodup_cons.1 hnd).1
      have hsub2 : ∀ y ∈ xs, y ∈ c.live.erase x := by
        intro y hy
        refine (List.mem_erase_of_ne ?_).2 (hsub y (List.mem_cons_of_mem _ hy))
        intro hcon
        exact hxnot (hcon ▸ hy)
      rcases ih hinv1 hnd2 hsub2 with ⟨p2, m2, live2, hrun, hinv2⟩
      refine ⟨p2, m2, live2, ?_, ?_⟩
      · unfold freeAll
        rw [hfeq]
        exact hrun
      · have heqlist : (x :: xs).reverse ++ fl = xs.reverse ++ (x :: fl) := by
          simp
        rw [heqlist]
        exact hinv2

theorem allocN_pop {N : Nat} {c : Config} {fl : List Addr}
    (h : PoolInv c fl) (hlen : N ≤ fl.length) :
    ∃ items p2, allocN N c.pool c.mem = CRes.ok (items, p2, c.mem) ∧
      items.length = N ∧ ∀ x ∈ items, (c.mem.read x).isSome := by
  induction N generalizing c fl with
  | zero => exact ⟨[], c.pool, rfl, rfl, by simp⟩
  | succ n ih =>
      rcases fl with _ | ⟨a, fl⟩
      · simp at hlen
      · rcases alloc_pop h with ⟨v, hread, haeq, hinv⟩
        rcases ih hinv (by simp only [List.length_cons] at hlen; omega)
          with ⟨items, p2, hrun, hlen2, hvalid⟩
        refine ⟨a :: items, p2, ?_, by simp [hlen2], ?_⟩
        · unfold allocN
          rw [haeq]
          dsimp only
          rw [hrun]
        · intro x hx
          rcases List.mem_cons.1 hx with rfl | hx
          · rw [hread]; rfl
          · exact hvalid x hx

/-- Full case analysis of a successful alloc_item call. -/
theorem alloc_item_ok_cases {p : Pool} {m : Mem} {r : Ptr} {p1 : Pool} {m1 : Mem}
    {e : Bool} (h : alloc_item p m = CRes.ok (r, p1, m1, e)) :
    ∃ a v, r = some a ∧ m1.read a = some v ∧
      p1 = { p with n_items := p.n_items + 1, first_free := v } ∧
      ((p.first_free = some a ∧ m1 = m ∧ e = false) ∨
       (p.first_free = none ∧
         get_slab m (if p.n_items < 8 then 8 else p.n_items) = (some a, m1, e))) := by
  unfold alloc_item at h
  by_cases hff : p.first_free = none
  · rw [if_pos hff] at h
    rcases hgs : get_slab m (if p.n_items < 8 then 8 else p.n_items) with ⟨sl, mg, eg⟩
    rw [hgs] at h
    dsimp only at h
    rcases sl with _ | a
    · simp at h
    · dsimp only at h
      rcases hr : mg.read a with _ | nxt <;> rw [hr] at h
      · simp at h
      · dsimp only at h
        rcases h with ⟨rfl, rfl, rfl, rfl⟩
        exact ⟨a, nxt, rfl, hr, rfl, Or.inr ⟨hff, rfl⟩⟩
  · rw [if_neg hff] at h
    dsimp only at h
    rcases hsf : p.first_free with _ | a
    · exact absurd hsf hff
    · rw [hsf] at h
      dsimp only at h
      rcases hr : m.read a with _ | nxt <;> rw [hr] at h
      · simp at h
      · dsimp only at h
        rcases h with ⟨rfl, rfl, rfl, rfl⟩
        exact ⟨a, nxt, rfl, hr, rfl, Or.inl ⟨rfl, rfl, rfl⟩⟩

/-- Characterization of a successful free_item call. -/
theorem free_item_ok {p : Pool} {m : Mem} {x : Addr} {p1 : Pool} {m1 : Mem}
    (h : free_item p m x = CRes.ok (p1, m1)) :
    m.write x p.first_free = some m1 ∧ p1 = { p with first_free := some x } := by
  unfold free_item at h
  rcases hw : m.write x p.first_free with _ | m2 <;> rw [hw] at h
  · simp at h
  · rcases h with ⟨rfl, rfl⟩
    exact ⟨rfl, rfl⟩

/-! ### Claims -/

/-- Claim C1 (refuted by the code — code bug): the claim says every slab the
pool ever allocates, including acquire-item growth slabs, is recorded in the
pool's slab collection so that deinit releases it.  In the code, alloc_item
stores the new slab only into `first_free` and never appends it to `slabs`:
after one acquisition on an empty pool, `n_slabs` is still 0 and `slabs` is
still NULL, so deinit frees nothing and the slab block stays live in the
allocator (a leak). -/
theorem C1_growth_slab_not_recorded :
    alloc_item init_empty (⟨0, [], []⟩ : Mem) =
      CRes.ok (some (0, 0), ⟨none, 0, 0, 1, some (0, 1)⟩,
        ⟨1, [(0, slabCells 0 8)], []⟩, false) ∧
    (⟨none, 0, 0, 1, some (0, 1)⟩ : Pool).n_slabs = 0 ∧
    (⟨none, 0, 0, 1, some (0, 1)⟩ : Pool).slabs = none ∧
    deinit (⟨none, 0, 0, 1, some (0, 1)⟩ : Pool) (⟨1, [(0, slabCells 0 8)], []⟩ : Mem) =
      CRes.ok (init_empty, ⟨1, [(0, slabCells 0 8)], []⟩) ∧
    (⟨1, [(0, slabCells 0 8)], []⟩ : Mem).blocks ≠ [] := by
  refine ⟨?_, ?_, ?_, ?_, ?_⟩ <;> decide

/-- Claim C2 (refuted by the code — code bug): the claim says that when the
free list is empty and the slab allocation fails, acquire-item returns NULL
with the error set and the pool state intact.  In the code the NULL returned
by get_slab becomes the free-list head, `assert(it != NULL)` fires (or,
under NDEBUG, the NULL head is dereferenced): undefined behavior, no clean
NULL return. -/
theorem C2_alloc_failure_crashes :
    alloc_item init_empty (⟨0, [], [false]⟩ : Mem) = CRes.undef := by decide

/-- Claim C3 (refuted by the code — code bug): the claim says
construct-with-capacity fails cleanly with AllocationFailure, leaving a pool
safe to destroy with no partial or leaked slab-list entry.  In the code,
when the slab-index allocation (`csnip_mem_Alloc(1, slabs, *err)`) fails
the unconditional store `slabs[0] = sl` dereferences the NULL index
pointer: undefined behavior, and a successfully allocated slab leaks. -/
theorem C3_init_with_cap_crashes :
    init_with_cap 1 (⟨0, [], [true, false]⟩ : Mem) = CRes.undef := by decide

/-- Claim C9: construct-empty returns a pool with no slabs (slab pointer
NULL, slab counters zero), an empty free list, and a zero n_items counter;
the embedded `init_empty` is a pure constant and performs no allocator
call at all. -/
theorem C9_init_empty_state :
    init_empty.slabs = none ∧ init_empty.n_slabs = 0 ∧ init_empty.cap_slabs = 0 ∧
      init_empty.n_items = 0 ∧ init_empty.first_free = none :=
  ⟨rfl, rfl, rfl, rfl, rfl⟩

/-- Claim C7: every successful acquire-item call increments n_items by
exactly one, and release-item leaves n_items unchanged (it is never
decremented). -/
theorem C7_n_items_counter :
    (∀ p m r p1 m1 e, alloc_item p m = CRes.ok (r, p1, m1, e) →
        p1.n_items = p.n_items + 1) ∧
    (∀ p m x p1 m1, free_item p m x = CRes.ok (p1, m1) →
        p1.n_items = p.n_items) := by
  constructor
  · intro p m r p1 m1 e h
    rcases alloc_item_ok_cases h with ⟨a, v, _, _, rfl, _⟩
    rfl
  · intro p m x p1 m1 h
    rcases free_item_ok h with ⟨_, rfl⟩
    rfl

/-- Witness for C7 at a concrete acquire and a concrete release. -/
theorem C7_n_items_counter_witness :
    (⟨none, 0, 0, 1, some (0, 1)⟩ : Pool).n_items = init_empty.n_items + 1 ∧
    (⟨none, 0, 0, 0, some (0, 0)⟩ : Pool).n_items = init_empty.n_items :=
  ⟨C7_n_items_counter.1 init_empty ⟨0, [], []⟩ (some (0, 0))
      ⟨none, 0, 0, 1, some (0, 1)⟩ ⟨1, [(0, slabCells 0 8)], []⟩ false (by decide),
   C7_n_items_counter.2 init_empty ⟨1, [(0, [none])], []⟩ (0, 0)
      ⟨none, 0, 0, 0, some (0, 0)⟩ ⟨1, [(0, [none])], []⟩ (by decide)⟩

/-- Claim C10: any successful deinit resets the pool to exactly the
construct-empty state, and deinit of an already-empty (or just destroyed)
pool is safe: it succeeds, leaves the allocator untouched, and yields the
same empty pool again — so destroy is idempotent and a destroyed pool is
reusable as a fresh empty pool. -/
theorem C10_destroy_resets :
    (∀ p m p1 m1, deinit p m = CRes.ok (p1, m1) → p1 = init_empty) ∧
    (∀ m, deinit init_empty m = CRes.ok (init_empty, m)) := by
  constructor
  · intro p m p1 m1 h
    unfold deinit at h
    by_cases hn : p.n_slabs = 0
    · rw [if_pos hn] at h
      exact (congrArg Prod.fst (CRes.ok.inj h)).symm
    · rw [if_neg hn] at h
      rcases hs : p.slabs with _ | base <;> rw [hs] at h
      · simp at h
      · dsimp only at h
        cases hfs : freeSlabs m base 0 p.n_slabs with
        | undef => rw [hfs] at h; simp at h
        | ok mf =>
            rw [hfs] at h
            exact (congrArg Prod.fst (CRes.ok.inj h)).symm
  · intro m
    rfl

/-- Witness for C10 at a concrete one-slab pool. -/
theorem C10_destroy_resets_witness :
    init_empty = init_empty ∧
    deinit init_empty (⟨0, [], []⟩ : Mem) = CRes.ok (init_empty, ⟨0, [], []⟩) :=
  ⟨C10_destroy_resets.1 ⟨some (1, 0), 1, 1, 0, some (0, 0)⟩
      ⟨2, [(0, [none]), (1, [some (0, 0)])], []⟩ init_empty ⟨2, [], []⟩ (by decide),
   C10_destroy_resets.2 ⟨0, [], []⟩⟩

/-- Claim C4: whenever acquire-item runs with an empty free list and
succeeds, the slab obtained from the collaborator has exactly
max(8, n_items) items; concretely, after construct-with-capacity(4) and
four acquisitions the fifth acquisition triggers growth of size 8, and on
an empty pool the first acquisition triggers growth of size 8. -/
theorem C4_growth_policy :
    (∀ p m r p1 m1 e, MemWF m → p.first_free = none →
        alloc_item p m = CRes.ok (r, p1, m1, e) →
        ∃ cells, m1.findBlock m.nextId = some cells ∧
          cells.length = max 8 p.n_items) ∧
    (init_with_cap 4 (⟨0, [], []⟩ : Mem) =
        CRes.ok (⟨some (1, 0), 1, 1, 0, some (0, 0)⟩,
          ⟨2, [(0, slabCells 0 4), (1, [some (0, 0)])], []⟩, false) ∧
      allocN 4 ⟨some (1, 0), 1, 1, 0, some (0, 0)⟩
          ⟨2, [(0, slabCells 0 4), (1, [some (0, 0)])], []⟩ =
        CRes.ok ([(0, 0), (0, 1), (0, 2), (0, 3)],
          ⟨some (1, 0), 1, 1, 4, none⟩,
          ⟨2, [(0, slabCells 0 4), (1, [some (0, 0)])], []⟩) ∧
      (⟨some (1, 0), 1, 1, 4, none⟩ : Pool).first_free = none ∧
      (⟨some (1, 0), 1, 1, 4, none⟩ : Pool).n_items = 4 ∧
      alloc_item ⟨some (1, 0), 1, 1, 4, none⟩
          ⟨2, [(0, slabCells 0 4), (1, [some (0, 0)])], []⟩ =
        CRes.ok (some (2, 0), ⟨some (1, 0), 1, 1, 5, some (2, 1)⟩,
          ⟨3, [(0, slabCells 0 4), (1, [some (0, 0)]), (2, slabCells 2 8)], []⟩, false) ∧
      (slabCells 2 8).length = 8) ∧
    (alloc_item init_empty (⟨0, [], []⟩ : Mem) =
        CRes.ok (some (0, 0), ⟨none, 0, 0, 1, some (0, 1)⟩,
          ⟨1, [(0, slabCells 0 8)], []⟩, false) ∧
      (slabCells 0 8).length = 8) := by
  refine ⟨?_, by decide, by decide⟩
  intro p m r p1 m1 e hwf hff h
  rcases alloc_item_ok_cases h with ⟨a, v, _, _, _, hcase⟩
  rcases hcase with ⟨hsf, _, _⟩ | ⟨_, hgs⟩
  · rw [hff] at hsf
    cases hsf
  · rcases get_slab_success hwf hgs with ⟨_, _, _, _, hfb, _⟩
    refine ⟨slabCells m.nextId (if p.n_items < 8 then 8 else p.n_items), hfb, ?_⟩
    rw [slabCells_length]
    split <;> omega

/-- Witness for C4's general part at a concrete growth call. -/
theorem C4_growth_policy_witness :
    ∃ cells, (⟨1, [(0, slabCells 0 8)], []⟩ : Mem).findBlock 0 = some cells ∧
      cells.length = max 8 init_empty.n_items :=
  C4_growth_policy.1 init_empty ⟨0, [], []⟩ (some (0, 0))
    ⟨none, 0, 0, 1, some (0, 1)⟩ ⟨1, [(0, slabCells 0 8)], []⟩ false
    (by constructor <;> decide) (by decide) (by decide)

/-- Claim C8: a successful get_slab of g ≥ 1 items links all g items through
their overlaid next fields — cell i points to item i+1 for i < g-1, the
last cell holds the NULL terminator — and returns the slab's first item
(index 0), which the growth path of alloc_item installs as the free-list
head (the item it pops and returns is exactly get_slab's result). -/
theorem C8_slab_linking :
    (∀ m g a m1 e, MemWF m → 1 ≤ g → get_slab m g = (some a, m1, e) →
        a.2 = 0 ∧
        ∃ cells, m1.findBlock a.1 = some cells ∧ cells.length = g ∧
          (∀ i, i + 1 < g → cells[i]? = some (some (a.1, i + 1))) ∧
          cells[g - 1]? = some none) ∧
    (∀ p m r p1 m1 e, p.first_free = none →
        alloc_item p m = CRes.ok (r, p1, m1, e) →
        r = (get_slab m (if p.n_items < 8 then 8 else p.n_items)).1) := by
  constructor
  · intro m g a m1 e hwf hg h
    rcases get_slab_success hwf h with ⟨rfl, _, _, _, hfb, _⟩
    refine ⟨rfl, slabCells m.nextId g, hfb, slabCells_length _ _, ?_, ?_⟩
    · intro i hi
      rw [slabCells_get _ _ _ (by omega), if_neg (by omega)]
    · rw [slabCells_get _ _ _ (by omega), if_pos (by omega)]
  · intro p m r p1 m1 e hff h
    rcases alloc_item_ok_cases h with ⟨a, v, rfl, _, _, hcase⟩
    rcases hcase with ⟨hsf, _, _⟩ | ⟨_, hgs⟩
    · rw [hff] at hsf
      cases hsf
    · rw [hgs]

/-- Witness for C8 at a concrete slab of 3 items. -/
theorem C8_slab_linking_witness :
    (((0, 0) : Addr).2 = 0 ∧
      ∃ cells, (⟨1, [(0, slabCells 0 3)], []⟩ : Mem).findBlock 0 = some cells ∧
        cells.length = 3 ∧
        (∀ i, i + 1 < 3 → cells[i]? = some (some (0, i + 1))) ∧
        cells[3 - 1]? = some none) ∧
    (some ((0, 0) : Addr) : Ptr) =
      (get_slab (⟨0, [], []⟩ : Mem) (if init_empty.n_items < 8 then 8
        else init_empty.n_items)).1 :=
  ⟨C8_slab_linking.1 ⟨0, [], []⟩ 3 (0, 0) ⟨1, [(0, slabCells 0 3)], []⟩ false
      (by constructor <;> decide) (by decide) (by decide),
   C8_slab_linking.2 init_empty ⟨0, [], []⟩ (some (0, 0))
      ⟨none, 0, 0, 1, some (0, 1)⟩ ⟨1, [(0, slabCells 0 8)], []⟩ false
      (by decide) (by decide)⟩

/-- Claim C6: along any acquire/release sequence respecting the release
precondition, a reference returned by acquire-item is distinct from every
other currently-live reference: no two simultaneously allocated items
alias. -/
theorem C6_no_alias :
    ∀ c, Reach c → ∀ a p1 m1 e,
      alloc_item c.pool c.mem = CRes.ok (some a, p1, m1, e) →
      a ∉ c.live ∧ (a :: c.live).Nodup := by
  intro c h a p1 m1 e ha
  rcases reach_inv h with ⟨fl, hinv⟩
  rcases alloc_preserve hinv ha with ⟨a2, fl2, heq, hnotin, _⟩
  cases heq
  exact ⟨hnotin, List.nodup_cons.2 ⟨hnotin, hinv.live_nodup⟩⟩

/-- Witness for C6 at the first acquisition on a fresh empty pool. -/
theorem C6_no_alias_witness :
    ((0, 0) : Addr) ∉ ([] : List Addr) ∧ ([((0, 0) : Addr)]).Nodup :=
  C6_no_alias ⟨init_empty, ⟨0, [], []⟩, []⟩
    (Reach.empty (by constructor <;> decide)) (0, 0)
    ⟨none, 0, 0, 1, some (0, 1)⟩ ⟨1, [(0, slabCells 0 8)], []⟩ false (by decide)

/-- Claim C5: releasing an item and then acquiring returns the same storage
address (LIFO reuse of the free-list head, with no allocator interaction);
and along any reachable pool state, acquiring N items, releasing all N,
and acquiring N again succeeds with N references while leaving the
allocator state untouched — no new slab is requested. -/
theorem C5_lifo_roundtrip :
    (∀ p m x p1 m1, free_item p m x = CRes.ok (p1, m1) →
        ∃ p2 m2 e, alloc_item p1 m1 = CRes.ok (some x, p2, m2, e) ∧ m2 = m1) ∧
    (∀ c, Reach c → ∀ N items p1 m1,
        allocN N c.pool c.mem = CRes.ok (items, p1, m1) →
        ∃ p2 m2, freeAll items p1 m1 = CRes.ok (p2, m2) ∧
          ∃ items2 p3, allocN N p2 m2 = CRes.ok (items2, p3, m2) ∧
            items2.length = N) := by
  constructor
  · intro p m x p1 m1 h
    rcases free_item_ok h with ⟨hw, rfl⟩
    refine ⟨{ p with n_items := p.n_items + 1 }, m1, false, ?_, rfl⟩
    unfold alloc_item
    rw [if_neg (by simp)]
    dsimp only
    rw [read_write_self hw]
  · intro c hreach N items p1 m1 hrun
    rcases reach_inv hreach with ⟨fl0, hinv0⟩
    rcases allocN_inv hinv0 hrun with ⟨fl1, hinv1, hlenN⟩
    have hnd : items.Nodup := by
      have h2 := List.Nodup.of_append_left hinv1.live_nodup
      exact List.nodup_reverse.1 h2
    have hsub : ∀ x ∈ items, x ∈ items.reverse ++ c.live := by
      intro x hx
      exact List.mem_append_left _ (List.mem_reverse.2 hx)
    rcases freeAll_inv hinv1 hnd hsub with ⟨p2, m2, live2, hfr, hinv2⟩
    refine ⟨p2, m2, hfr, ?_⟩
    rcases allocN_pop hinv2 (show N ≤ (items.reverse ++ fl1).length by
        rw [List.length_append, List.length_reverse, hlenN]
        omega) with ⟨items2, p3, hrun2, hlen2, _⟩
    exact ⟨items2, p3, hrun2, hlen2⟩

/-- Witness for C5 at a concrete release/acquire pair and a 1-item
round trip on a fresh empty pool. -/
theorem C5_lifo_roundtrip_witness :
    (∃ p2 m2 e, alloc_item (⟨none, 0, 0, 0, some (0, 0)⟩ : Pool)
        (⟨1, [(0, [none])], []⟩ : Mem) =
        CRes.ok (some (0, 0), p2, m2, e) ∧ m2 = (⟨1, [(0, [none])], []⟩ : Mem)) ∧
    (∃ p2 m2, freeAll [(0, 0)] (⟨none, 0, 0, 1, some (0, 1)⟩ : Pool)
        (⟨1, [(0, slabCells 0 8)], []⟩ : Mem) = CRes.ok (p2, m2) ∧
      ∃ items2 p3, allocN 1 p2 m2 = CRes.ok (items2, p3, m2) ∧
        items2.length = 1) :=
  ⟨C5_lifo_roundtrip.1 init_empty ⟨1, [(0, [none])], []⟩ (0, 0)
      ⟨none, 0, 0, 0, some (0, 0)⟩ ⟨1, [(0, [none])], []⟩ (by decide),
   C5_lifo_roundtrip.2 ⟨init_empty, ⟨0, [], []⟩, []⟩
      (Reach.empty (by constructor <;> decide)) 1 [(0, 0)]
      ⟨none, 0, 0, 1, some (0, 1)⟩ ⟨1, [(0, slabCells 0 8)], []⟩ (by decide)⟩
